import Mathlib

set_option maxHeartbeats 1000000

noncomputable section

open Classical

/-! Shallow embedding of python_scripts/jets_training/models/JetPointNet.py.

Tensors are modelled as (nested) lists of real numbers.  The loss and metric
functions of the source receive two tensors y_true / y_pred of one common
shape (batch, points, 1); here the trailing singleton class axis is collapsed
(the keras per-sample reductions "mean over the last axis" are the identity on
a singleton axis) and the two equally shaped tensors are modelled as a single
tensor of (true, pred) pairs, of type List (List (ℝ × ℝ)) — outer list the
batch, inner list the points.  Floating point arithmetic is idealised as real
arithmetic; tf division by zero (inf/nan) corresponds to Lean's total division
x / 0 = 0, and reductions of empty tensors (tf: ±inf) are given the junk value
0 — theorems only ever compare the two sides under identical junk. -/

/-- Row-major flattening of one nesting level (tf tensors are row-major). -/
def flatL {α : Type} (l : List (List α)) : List α := l.foldr (· ++ ·) []

/-- Dot product of two equally long vectors (zipWith truncates on ragged input). -/
def dot (a b : List ℝ) : ℝ := (List.zipWith (· * ·) a b).sum

/-- tf.cast(tf.not_equal(t, -1.0), tf.float32) for a single label entry:
the valid-mask value of one point. -/
def maskVal (t : ℝ) : ℝ := if t ≠ -1 then 1 else 0

/-- tf.reduce_sum(mask): the count of non-sentinel points. -/
def maskSum (data : List (List (ℝ × ℝ))) : ℝ :=
  ((flatL data).map fun q => maskVal q.1).sum

/-- tf.boolean_mask with the valid mask: the (true, pred) pairs whose label is
not the sentinel -1.0, in row-major order. -/
def validPairs (data : List (List (ℝ × ℝ))) : List (ℝ × ℝ) :=
  (flatL data).filter fun q => q.1 ≠ -1

/-- tf.boolean_mask(y_true, mask): the non-sentinel labels. -/
def validTrue (data : List (List (ℝ × ℝ))) : List ℝ :=
  (validPairs data).map Prod.fst

/-- tf.boolean_mask(y_pred, mask): the predictions at non-sentinel points. -/
def validPred (data : List (List (ℝ × ℝ))) : List ℝ :=
  (validPairs data).map Prod.snd

/-- tf.reduce_max over a vector; tf yields -inf on an empty tensor, here the
junk value 0 (no theorem depends on the empty junk). -/
def reduceMax : List ℝ → ℝ
  | [] => 0
  | h :: t => t.foldl max h

/-- tf.reduce_min over a vector; junk value 0 on the empty tensor. -/
def reduceMin : List ℝ → ℝ
  | [] => 0
  | h :: t => t.foldl min h

/-- tf.maximum(tf.reduce_max(y_true_valid) - tf.reduce_min(y_true_valid), 1e-5):
the dynamic-range normaliser of the mse / mae losses. -/
def dynamicRange (data : List (List (ℝ × ℝ))) : ℝ :=
  max (reduceMax (validTrue data) - reduceMin (validTrue data)) 1e-5

/-- tf.clip_by_value. -/
def clipByValue (lo hi x : ℝ) : ℝ := max lo (min x hi)

/-- keras backend epsilon, used by keras binary_crossentropy to clip the
predicted probability before taking logarithms. -/
def kerasEpsilon : ℝ := 1e-7

/-- One term of keras binary_crossentropy (from_logits=False): the prediction
is clipped into [eps, 1-eps] and -(t*log p + (1-t)*log (1-p)) is returned. -/
def bceTerm (t p : ℝ) : ℝ :=
  -(t * Real.log (clipByValue kerasEpsilon (1 - kerasEpsilon) p) +
    (1 - t) * Real.log (1 - clipByValue kerasEpsilon (1 - kerasEpsilon) p))

/-- One term of keras Huber loss with delta = 1.0 (reduction NONE):
half-squared error below the delta, linear above it. -/
def huberTerm (d : ℝ) : ℝ := if |d| ≤ 1 then d ^ 2 / 2 else |d| - 1 / 2

/-- masked_mse_loss: per point (t-p)^2 * mask / dynamic_range^2, summed, then
divided by the valid-point count. -/
def masked_mse_loss (data : List (List (ℝ × ℝ))) : ℝ :=
  (((flatL data).map fun q =>
    (q.1 - q.2) ^ 2 * maskVal q.1 / dynamicRange data ^ 2).sum) / maskSum data

/-- masked_mae_loss: per point |t-p| * mask / dynamic_range, summed, divided by
the valid-point count, times 1000. -/
def masked_mae_loss (data : List (List (ℝ × ℝ))) : ℝ :=
  (((flatL data).map fun q =>
    |q.1 - q.2| * maskVal q.1 / dynamicRange data).sum) / maskSum data * 1000

/-- masked_huber_loss: per point huber(t-p) * mask, summed, divided by the
valid-point count and by the batch size. -/
def masked_huber_loss (data : List (List (ℝ × ℝ))) : ℝ :=
  (((flatL data).map fun q =>
    huberTerm (q.1 - q.2) * maskVal q.1).sum) / maskSum data / (data.length : ℝ)

/-- masked_bce_loss: per point bce(t, p) * mask, summed, divided by the
valid-point count and by the batch size. -/
def masked_bce_loss (data : List (List (ℝ × ℝ))) : ℝ :=
  (((flatL data).map fun q =>
    bceTerm q.1 q.2 * maskVal q.1).sum) / maskSum data / (data.length : ℝ)

/-- masked_mse_bce_loss (bce_weight = 100.0): the masked dynamic-range mse part
plus a bce penalty -log(1 - clip(p, 0.001, 0.999)) applied (via the masks) at
the points whose label is exactly 0, both normalised by the valid count. -/
def masked_mse_bce_loss (data : List (List (ℝ × ℝ))) : ℝ :=
  (((flatL data).map fun q =>
    (q.1 - q.2) ^ 2 * maskVal q.1 / dynamicRange data ^ 2).sum) / maskSum data +
  (((flatL data).map fun q =>
    100 * bceTerm 0 (clipByValue 0.001 0.999 q.2) *
      (if q.1 = 0 then (1 : ℝ) else 0) * maskVal q.1).sum) / maskSum data

/-- tf.reduce_sum(y_true_masked) in custom_accuracy_metric. -/
def sumTrueMasked (data : List (List (ℝ × ℝ))) : ℝ := (validTrue data).sum

/-- tf.reduce_sum(y_pred_masked) in custom_accuracy_metric. -/
def sumPredMasked (data : List (List (ℝ × ℝ))) : ℝ := (validPred data).sum

/-- custom_accuracy_metric: 100 * sum of masked predictions over
(sum of masked labels + 1e-8), capped by tf.minimum at 1000. -/
def custom_accuracy_metric (data : List (List (ℝ × ℝ))) : ℝ :=
  min (100 * sumPredMasked data / (sumTrueMasked data + 1e-8)) 1000

/-- rectified_TSSR_Activation with a = 0.01 and b = 0.1, as the nest of the two
tf.where selections in the source (the outer selects the leaky a*x branch for
x < 0, the inner selects x on 0 <= x < 1, else sign(x)*(b*sqrt|x| - b + 1)). -/
def rectified_TSSR_Activation (x : ℝ) : ℝ :=
  if x < 0 then 0.01 * x
  else if 0 ≤ x ∧ x < 1 then x
  else Real.sign x * (0.1 * Real.sqrt |x| - 0.1 + 1)

/-- CustomMaskingLayer.call: the mask is 1 at a point whose last feature
(inputs[:, :, -1], the type) differs from -1 and 0 where it equals -1, and
every feature of the point is multiplied by that point's mask value. -/
def CustomMaskingLayer (inputs : List (List (List ℝ))) : List (List (List ℝ)) :=
  inputs.map fun ev => ev.map fun pt =>
    pt.map fun v => v * (if pt.getLastD 0 ≠ -1 then 1 else 0)

/-- tf.reshape-style chunking of a flat list into rows of length n (row-major);
returns [] for n = 0, where tf.reshape would be ill-formed. -/
def chunk {α : Type} (n : ℕ) (v : List α) : List (List α) :=
  if h : v = [] ∨ n = 0 then [] else v.take n :: chunk n (v.drop n)
termination_by v.length
decreasing_by
  push_neg at h
  have hv : 0 < v.length := List.length_pos.mpr h.1
  simp only [List.length_drop]
  omega

/-- OrthogonalRegularizer.__call__ with parameters num_features = nf and l2.
The input (a dense kernel) is reshaped to k = len/(nf*nf) matrices A[b] of
shape nf x nf; tf.tensordot(A, A, axes=(2, 2)) has entries
T[b1, i, b2, j] = dot(A[b1] row i, A[b2] row j) (shape (k, nf, k, nf)); its
row-major reshape to (-1, nf, nf) places entry (b1, i, b2, j) at flat position
p = b1*nf*k*nf + i*k*nf + b2*nf + j, i.e. at column p % nf = j and row
(p / nf) % nf = (i*k + b2) % nf of its nf x nf slice, from which the broadcast
identity is subtracted before squaring and summing. -/
def OrthogonalRegularizer (nf : ℕ) (l2 : ℝ) (inputs : List ℝ) : ℝ :=
  ((List.range (inputs.length / (nf * nf))).map fun b1 =>
    ((List.range nf).map fun i =>
      ((List.range (inputs.length / (nf * nf))).map fun b2 =>
        ((List.range nf).map fun j =>
          l2 * (dot ((chunk nf inputs).getD (b1 * nf + i) [])
                    ((chunk nf inputs).getD (b2 * nf + j) []) -
                (if (i * (inputs.length / (nf * nf)) + b2) % nf = j
                 then (1 : ℝ) else 0)) ^ 2).sum).sum).sum).sum

/-- The n x n identity matrix as a list of rows. -/
def identityMat (n : ℕ) : List (List ℝ) :=
  (List.range n).map fun i => (List.range n).map fun j => if i = j then 1 else 0

/-- The n x n identity matrix flattened row-major, as tf.eye(n) reshaped. -/
def identityFlat (n : ℕ) : List ℝ := flatL (identityMat n)

/-! Model architecture (PointNetSegmentation and its building blocks), in
inference mode: keras BatchNormalization applies the learned per-channel
affine map x ↦ gamma * (x - mean) / sqrt(var + 0.001) (0.001 is the keras
default epsilon) + beta, and Dropout is the identity.  A Conv1D with
kernel_size 1 and a Dense layer are the same per-point affine map, so a layer
is a weight matrix (list of rows, one per output filter), a bias vector and a
list of batch-norm channel parameters.  Layer widths are carried by the
lengths of the weight lists.  The kernel_regularizer passed to the last TNet
dense layer only adds a training-loss penalty and does not change the forward
value. -/

/-- Learned per-channel BatchNormalization parameters. -/
structure BNParam where
  gamma : ℝ
  beta : ℝ
  mean : ℝ
  var : ℝ

/-- Weights of one Conv1D(kernel_size 1) / Dense layer followed by a
BatchNormalization layer. -/
structure LayerParams where
  w : List (List ℝ)
  b : List ℝ
  bn : List BNParam

/-- y = W x + b, one output per weight row (Conv1D kernel_size 1 / Dense). -/
def denseV (w : List (List ℝ)) (b : List ℝ) (x : List ℝ) : List ℝ :=
  (w.zip b).map fun wb => dot wb.1 x + wb.2

/-- relu activation on a scalar. -/
def relu (x : ℝ) : ℝ := max x 0

/-- relu applied channelwise. -/
def reluV (v : List ℝ) : List ℝ := v.map relu

/-- Inference-mode BatchNormalization applied channelwise. -/
def bnApply (ps : List BNParam) (x : List ℝ) : List ℝ :=
  List.zipWith (fun xi p => (xi - p.mean) / Real.sqrt (p.var + 0.001) * p.gamma + p.beta) x ps

/-- conv_mlp applied to one point: Conv1D(kernel 1, relu) then BatchNorm
(then Dropout, the identity at inference time). -/
def convPoint (lp : LayerParams) (x : List ℝ) : List ℝ :=
  bnApply lp.bn (reluV (denseV lp.w lp.b x))

/-- conv_mlp: the shared per-point map applied to every point. -/
def conv_mlp (lp : LayerParams) (pts : List (List ℝ)) : List (List ℝ) :=
  pts.map (convPoint lp)

/-- dense_block: Dense (no activation), BatchNorm, then relu activation. -/
def dense_block (lp : LayerParams) (x : List ℝ) : List ℝ :=
  reluV (bnApply lp.bn (denseV lp.w lp.b x))

/-- GlobalMaxPooling1D: channelwise maximum over the points axis (tf requires
at least one point; the empty case is given junk []). -/
def globalMaxPool : List (List ℝ) → List ℝ
  | [] => []
  | h :: t => t.foldl (fun acc v => List.zipWith max acc v) h

/-- Weights of one TNet: three conv_mlp layers and three dense_block layers. -/
structure TNetParams where
  c1 : LayerParams
  c2 : LayerParams
  c3 : LayerParams
  d1 : LayerParams
  d2 : LayerParams
  d3 : LayerParams

/-- TNet: conv_mlp 64/128/1024, GlobalMaxPooling1D, dense_block 512/256 and a
final dense_block of width size*size reshaped to a size x size matrix. -/
def TNet (tp : TNetParams) (size : ℕ) (pts : List (List ℝ)) : List (List ℝ) :=
  chunk size (dense_block tp.d3 (dense_block tp.d2 (dense_block tp.d1
    (globalMaxPool (conv_mlp tp.c3 (conv_mlp tp.c2 (conv_mlp tp.c1 pts)))))))

/-- v.map (c * .): one summand of a vector-matrix product. -/
def scaleV (c : ℝ) (v : List ℝ) : List ℝ := v.map (c * ·)

/-- Channelwise sum of two vectors. -/
def addV (a b : List ℝ) : List ℝ := List.zipWith (· + ·) a b

/-- Sum of a list of vectors of width n. -/
def sumVL (n : ℕ) (l : List (List ℝ)) : List ℝ := l.foldr addV (List.replicate n 0)

/-- keras Dot(axes=(2, 1)) restricted to one point: the row vector p times the
matrix M (list of rows of width n), (p M)_j = sum_k p_k M_(k, j). -/
def vecMat (n : ℕ) (p : List ℝ) (M : List (List ℝ)) : List ℝ :=
  sumVL n ((List.zip p M).map fun q => scaleV q.1 q.2)

/-- sigmoid, the keras Activation("sigmoid") applied to the segmentation head. -/
def sigmoid (x : ℝ) : ℝ := 1 / (1 + Real.exp (-x))

/-- All weights of PointNetSegmentation: input TNet, two conv_mlp 64 layers,
feature TNet, conv_mlp 320/640/5120 (64, 128, 1024 times the
network_size_factor 5), conv_mlp 2560/1280/640 after the concatenation, and
the final Conv1D(num_classes, kernel 1) of the segmentation head. -/
structure PNetParams where
  t1 : TNetParams
  c1 : LayerParams
  c2 : LayerParams
  t2 : TNetParams
  c3 : LayerParams
  c4 : LayerParams
  c5 : LayerParams
  c6 : LayerParams
  c7 : LayerParams
  c8 : LayerParams
  segW : List (List ℝ)
  segB : List ℝ

/-- The per-point branch of PointNetSegmentation up to point_features: Dot of
the point with the input TNet matrix, then the two conv_mlp 64 layers. -/
def pointFeaturesOf (P : PNetParams) (pts : List (List ℝ)) : List (List ℝ) :=
  conv_mlp P.c2 (conv_mlp P.c1 (pts.map fun p => vecMat 6 p (TNet P.t1 6 pts)))

/-- The deep per-point features: Dot with the feature TNet matrix, then
conv_mlp 320/640/5120. -/
def deepFeaturesOf (P : PNetParams) (pts : List (List ℝ)) : List (List ℝ) :=
  conv_mlp P.c5 (conv_mlp P.c4 (conv_mlp P.c3
    ((pointFeaturesOf P pts).map fun p => vecMat 64 p (TNet P.t2 64 (pointFeaturesOf P pts)))))

/-- The global feature of PointNetSegmentation: GlobalMaxPooling1D over the
deep per-point features. -/
def globalFeatureOf (P : PNetParams) (pts : List (List ℝ)) : List ℝ :=
  globalMaxPool (deepFeaturesOf P pts)

/-- PointNetSegmentation forward pass: each point's features are concatenated
with the tiled global feature, passed through conv_mlp 2560/1280/640 (the last
with Dropout 0.3, the identity at inference), then the Conv1D(num_classes)
head, a sigmoid, and a multiplication by that point's input energy
(feature index 4 of the original input point). -/
def PointNetSegmentation (P : PNetParams) (pts : List (List ℝ)) : List (List ℝ) :=
  List.zipWith
    (fun c p => (denseV P.segW P.segB c).map fun s => sigmoid s * p.getD 4 0)
    (conv_mlp P.c8 (conv_mlp P.c7 (conv_mlp P.c6
      ((pointFeaturesOf P pts).map fun p => p ++ globalFeatureOf P pts))))
    pts

/-- The per-point function PointNetSegmentation computes before the
segmentation head, given the input TNet matrix M1. -/
def pfPoint (P : PNetParams) (M1 : List (List ℝ)) (p : List ℝ) : List ℝ :=
  convPoint P.c2 (convPoint P.c1 (vecMat 6 p M1))

/-- The whole per-point function of PointNetSegmentation, given the input TNet
matrix M1 and the pooled global feature g. -/
def segPoint (P : PNetParams) (M1 : List (List ℝ)) (g : List ℝ) (p : List ℝ) : List ℝ :=
  (denseV P.segW P.segB
    (convPoint P.c8 (convPoint P.c7 (convPoint P.c6 (pfPoint P M1 p ++ g))))).map
    fun s => sigmoid s * p.getD 4 0

/-- A layer of nOut zero weight rows (width nIn), zero biases, and batch-norm
parameters gamma = 0, beta = 0, mean = 0, var = 1: with these weights the
layer outputs the zero vector of width nOut on every input. -/
def zeroLayer (nOut nIn : ℕ) : LayerParams :=
  ⟨List.replicate nOut (List.replicate nIn 0), List.replicate nOut 0,
   List.replicate nOut ⟨0, 0, 0, 1⟩⟩

/-- All-zero weights for the input TNet (sizes as in TNet(input_points, 6)). -/
def zeroTNet1 : TNetParams :=
  ⟨zeroLayer 64 6, zeroLayer 128 64, zeroLayer 1024 128,
   zeroLayer 512 1024, zeroLayer 256 512, zeroLayer 36 256⟩

/-- All-zero weights for the feature TNet (sizes as in TNet(x, 64)). -/
def zeroTNet2 : TNetParams :=
  ⟨zeroLayer 64 64, zeroLayer 128 64, zeroLayer 1024 128,
   zeroLayer 512 1024, zeroLayer 256 512, zeroLayer 4096 256⟩

/-- A concrete all-zero weight assignment for PointNetSegmentation with
num_classes = 1, with the layer widths of the source (network_size_factor 5):
every pre-sigmoid score is 0, so each point's prediction is
sigmoid 0 * energy = energy / 2. -/
def zeroPN : PNetParams :=
  ⟨zeroTNet1, zeroLayer 64 6, zeroLayer 64 64, zeroTNet2,
   zeroLayer 320 64, zeroLayer 640 320, zeroLayer 5120 640,
   zeroLayer 2560 5184, zeroLayer 1280 2560, zeroLayer 640 1280,
   List.replicate 1 (List.replicate 640 0), List.replicate 1 0⟩

/-! General list lemmas used throughout. -/

lemma flatL_cons {α : Type} (x : List α) (l : List (List α)) :
    flatL (x :: l) = x ++ flatL l := rfl

lemma flatL_append {α : Type} (a b : List (List α)) :
    flatL (a ++ b) = flatL a ++ flatL b := by
  induction a with
  | nil => rfl
  | cons x t ih => rw [List.cons_append, flatL_cons, flatL_cons, ih, List.append_assoc]

lemma flatL_length_const {α : Type} (l : List (List α)) (n : ℕ)
    (h : ∀ r ∈ l, r.length = n) : (flatL l).length = l.length * n := by
  induction l with
  | nil => simp [flatL]
  | cons r t ih =>
    rw [flatL_cons, List.length_append, List.length_cons,
      h r (List.mem_cons_self r t), ih fun r hr => h r (List.mem_cons_of_mem _ hr)]
    ring

lemma sum_eq_zero_iff_of_nonneg (l : List ℝ) (h : ∀ x ∈ l, 0 ≤ x) :
    l.sum = 0 ↔ ∀ x ∈ l, x = 0 := by
  induction l with
  | nil => simp
  | cons a t ih =>
    have ha : 0 ≤ a := h a (List.mem_cons_self a t)
    have ht : ∀ x ∈ t, 0 ≤ x := fun x hx => h x (List.mem_cons_of_mem _ hx)
    have hts : 0 ≤ t.sum := List.sum_nonneg ht
    rw [List.sum_cons]
    constructor
    · intro h0
      have ha0 : a = 0 := by linarith
      have hts0 : t.sum = 0 := by linarith
      intro x hx
      rcases List.mem_cons.mp hx with rfl | hx
      · exact ha0
      · exact ((ih ht).mp hts0) x hx
    · intro h0
      rw [h0 a (List.mem_cons_self a t), zero_add]
      exact (ih ht).mpr fun x hx => h0 x (List.mem_cons_of_mem _ hx)

lemma sum_map_nonneg {α : Type} (l : List α) (f : α → ℝ)
    (h : ∀ a ∈ l, 0 ≤ f a) : 0 ≤ (l.map f).sum := by
  apply List.sum_nonneg
  intro x hx
  obtain ⟨a, ha, rfl⟩ := List.mem_map.mp hx
  exact h a ha

lemma sum_map_eq_zero_iff {α : Type} (l : List α) (f : α → ℝ)
    (h : ∀ a ∈ l, 0 ≤ f a) : (l.map f).sum = 0 ↔ ∀ a ∈ l, f a = 0 := by
  rw [sum_eq_zero_iff_of_nonneg]
  · constructor
    · intro H a ha
      exact H (f a) (List.mem_map.mpr ⟨a, ha, rfl⟩)
    · intro H x hx
      obtain ⟨a, ha, rfl⟩ := List.mem_map.mp hx
      exact H a ha
  · intro x hx
    obtain ⟨a, ha, rfl⟩ := List.mem_map.mp hx
    exact h a ha

/-! Claim C10: the rectified TSSR activation. -/

lemma tssr_of_neg {x : ℝ} (h : x < 0) : rectified_TSSR_Activation x = 0.01 * x := by
  simp [rectified_TSSR_Activation, h]

lemma tssr_of_mid {x : ℝ} (h0 : 0 ≤ x) (h1 : x < 1) : rectified_TSSR_Activation x = x := by
  rw [rectified_TSSR_Activation, if_neg (not_lt.mpr h0), if_pos ⟨h0, h1⟩]

lemma tssr_of_large {x : ℝ} (h : 1 ≤ x) :
    rectified_TSSR_Activation x = 0.1 * Real.sqrt x - 0.1 + 1 := by
  have h0 : (0 : ℝ) < x := lt_of_lt_of_le one_pos h
  rw [rectified_TSSR_Activation, if_neg (not_lt.mpr h0.le),
    if_neg (by intro hc; exact absurd h (not_le.mpr hc.2)),
    Real.sign_of_pos h0, abs_of_nonneg h0.le, one_mul]

lemma one_le_sqrt_of_one_le {x : ℝ} (h : 1 ≤ x) : 1 ≤ Real.sqrt x := by
  have := Real.sqrt_le_sqrt h
  rwa [Real.sqrt_one] at this

lemma tssr_monotone : Monotone rectified_TSSR_Activation := by
  intro a b hab
  rcases lt_or_le a 0 with ha | ha
  · rcases lt_or_le b 0 with hb | hb
    · rw [tssr_of_neg ha, tssr_of_neg hb]; linarith
    · rcases lt_or_le b 1 with hb1 | hb1
      · rw [tssr_of_neg ha, tssr_of_mid hb hb1]; linarith
      · rw [tssr_of_neg ha, tssr_of_large hb1]
        have := one_le_sqrt_of_one_le hb1
        linarith
  · rcases lt_or_le a 1 with ha1 | ha1
    · rcases lt_or_le b 1 with hb1 | hb1
      · rw [tssr_of_mid ha ha1, tssr_of_mid (le_trans ha hab) hb1]; exact hab
      · rw [tssr_of_mid ha ha1, tssr_of_large hb1]
        have := one_le_sqrt_of_one_le hb1
        linarith
    · rw [tssr_of_large ha1, tssr_of_large (le_trans ha1 hab)]
      have := Real.sqrt_le_sqrt hab
      linarith

lemma tssr_tendsto_zero_left :
    Filter.Tendsto rectified_TSSR_Activation (nhdsWithin 0 (Set.Iio 0)) (nhds 0) := by
  have hlin : Filter.Tendsto (fun x : ℝ => 0.01 * x) (nhdsWithin 0 (Set.Iio 0)) (nhds 0) := by
    have hc : Continuous fun x : ℝ => 0.01 * x := continuous_const.mul continuous_id
    have h1 : Filter.Tendsto (fun x : ℝ => 0.01 * x) (nhds 0) (nhds 0) := by
      have := hc.tendsto (0 : ℝ)
      simpa using this
    exact h1.mono_left nhdsWithin_le_nhds
  apply hlin.congr'
  filter_upwards [self_mem_nhdsWithin] with x hx
  exact (tssr_of_neg hx).symm

lemma tssr_tendsto_zero_right :
    Filter.Tendsto rectified_TSSR_Activation (nhdsWithin 0 (Set.Ioi 0)) (nhds 0) := by
  have hid : Filter.Tendsto (fun x : ℝ => x) (nhdsWithin 0 (Set.Ioi 0)) (nhds 0) :=
    (continuous_id.tendsto (0 : ℝ)).mono_left nhdsWithin_le_nhds
  apply hid.congr'
  have hlt : ∀ᶠ x : ℝ in nhdsWithin 0 (Set.Ioi 0), x < 1 :=
    (gt_mem_nhds one_pos).filter_mono nhdsWithin_le_nhds
  filter_upwards [self_mem_nhdsWithin, hlt] with x hx hx1
  exact (tssr_of_mid (le_of_lt hx) hx1).symm

lemma tssr_tendsto_one_left :
    Filter.Tendsto rectified_TSSR_Activation (nhdsWithin 1 (Set.Iio 1)) (nhds 1) := by
  have hid : Filter.Tendsto (fun x : ℝ => x) (nhdsWithin 1 (Set.Iio 1)) (nhds 1) :=
    (continuous_id.tendsto (1 : ℝ)).mono_left nhdsWithin_le_nhds
  apply hid.congr'
  have hpos : ∀ᶠ x : ℝ in nhdsWithin 1 (Set.Iio 1), 0 < x :=
    (lt_mem_nhds one_pos).filter_mono nhdsWithin_le_nhds
  filter_upwards [self_mem_nhdsWithin, hpos] with x hx hx0
  exact (tssr_of_mid hx0.le hx).symm

lemma tssr_tendsto_one_right :
    Filter.Tendsto rectified_TSSR_Activation (nhdsWithin 1 (Set.Ioi 1)) (nhds 1) := by
  have hsq : Filter.Tendsto (fun x : ℝ => 0.1 * Real.sqrt x - 0.1 + 1)
      (nhdsWithin 1 (Set.Ioi 1)) (nhds 1) := by
    have hc : Continuous fun x : ℝ => 0.1 * Real.sqrt x - 0.1 + 1 := by
      continuity
    have h1 : Filter.Tendsto (fun x : ℝ => 0.1 * Real.sqrt x - 0.1 + 1) (nhds 1) (nhds 1) := by
      have := hc.tendsto (1 : ℝ)
      simpa [Real.sqrt_one] using this
    exact h1.mono_left nhdsWithin_le_nhds
  apply hsq.congr'
  filter_upwards [self_mem_nhdsWithin] with x hx
  exact (tssr_of_large (le_of_lt hx)).symm

lemma tssr_unbounded (M : ℝ) : M < rectified_TSSR_Activation ((10 * |M| + 10) ^ 2) := by
  have habs : 0 ≤ |M| := abs_nonneg M
  have hbase : (10 : ℝ) ≤ 10 * |M| + 10 := by linarith
  have h1 : (1 : ℝ) ≤ (10 * |M| + 10) ^ 2 := by nlinarith
  rw [tssr_of_large h1, Real.sqrt_sq (by linarith)]
  have := le_abs_self M
  linarith

/-- Claim C10: rectified_TSSR_Activation equals 0.01*x for x < 0, x for
0 <= x < 1 and 0.1*sqrt x - 0.1 + 1 for x >= 1; it takes the value 0 at 0 and
1 at 1 and tends to those values from both sides of each boundary; it is
monotone; and it is unbounded above. -/
theorem rectified_TSSR_spec :
    (∀ x : ℝ, x < 0 → rectified_TSSR_Activation x = 0.01 * x) ∧
    (∀ x : ℝ, 0 ≤ x → x < 1 → rectified_TSSR_Activation x = x) ∧
    (∀ x : ℝ, 1 ≤ x → rectified_TSSR_Activation x = 0.1 * Real.sqrt x - 0.1 + 1) ∧
    rectified_TSSR_Activation 0 = 0 ∧ rectified_TSSR_Activation 1 = 1 ∧
    Filter.Tendsto rectified_TSSR_Activation (nhdsWithin 0 (Set.Iio 0)) (nhds 0) ∧
    Filter.Tendsto rectified_TSSR_Activation (nhdsWithin 0 (Set.Ioi 0)) (nhds 0) ∧
    Filter.Tendsto rectified_TSSR_Activation (nhdsWithin 1 (Set.Iio 1)) (nhds 1) ∧
    Filter.Tendsto rectified_TSSR_Activation (nhdsWithin 1 (Set.Ioi 1)) (nhds 1) ∧
    Monotone rectified_TSSR_Activation ∧
    (∀ M : ℝ, ∃ x : ℝ, M < rectified_TSSR_Activation x) := by
  refine ⟨fun x hx => tssr_of_neg hx, fun x h0 h1 => tssr_of_mid h0 h1,
    fun x hx => tssr_of_large hx, ?_, ?_, tssr_tendsto_zero_left,
    tssr_tendsto_zero_right, tssr_tendsto_one_left, tssr_tendsto_one_right,
    tssr_monotone, fun M => ⟨(10 * |M| + 10) ^ 2, tssr_unbounded M⟩⟩
  · rw [tssr_of_mid le_rfl one_pos]
  · rw [tssr_of_large le_rfl, Real.sqrt_one]; norm_num

/-- Witness for rectified_TSSR_spec at the concrete inputs -2, 1/2, 4, 0 and 2. -/
theorem rectified_TSSR_spec_witness :
    rectified_TSSR_Activation (-2) = 0.01 * (-2) ∧
    rectified_TSSR_Activation (1 / 2) = 1 / 2 ∧
    rectified_TSSR_Activation 4 = 0.1 * Real.sqrt 4 - 0.1 + 1 ∧
    rectified_TSSR_Activation 0 ≤ rectified_TSSR_Activation 2 ∧
    (∃ x : ℝ, 1000 < rectified_TSSR_Activation x) :=
  ⟨rectified_TSSR_spec.1 (-2) (by norm_num),
   rectified_TSSR_spec.2.1 (1 / 2) (by norm_num) (by norm_num),
   rectified_TSSR_spec.2.2.1 4 (by norm_num),
   rectified_TSSR_spec.2.2.2.2.2.2.2.2.2.1 (by norm_num : (0 : ℝ) ≤ 2),
   rectified_TSSR_spec.2.2.2.2.2.2.2.2.2.2 1000⟩

/-! Claim C7: CustomMaskingLayer zeroes exactly the sentinel-typed points. -/

lemma map_mul_zero_eq_replicate (pt : List ℝ) :
    (pt.map fun v => v * 0) = List.replicate pt.length 0 := by
  induction pt with
  | nil => rfl
  | cons a t ih => simp [ih, List.replicate_succ]

/-- Claim C7: CustomMaskingLayer.call returns a tensor of the same shape in
which a point whose last feature equals -1 has all features replaced by zero
and every other point is unchanged. -/
theorem CustomMaskingLayer_spec (inputs : List (List (List ℝ))) :
    CustomMaskingLayer inputs =
      inputs.map (fun ev => ev.map fun pt =>
        if pt.getLastD 0 = -1 then List.replicate pt.length 0 else pt) ∧
    (CustomMaskingLayer inputs).map (fun ev => ev.map List.length) =
      inputs.map (fun ev => ev.map List.length) := by
  have hpt : ∀ pt : List ℝ,
      (pt.map fun v => v * (if pt.getLastD 0 ≠ -1 then 1 else 0)) =
      if pt.getLastD 0 = -1 then List.replicate pt.length 0 else pt := by
    intro pt
    by_cases h : pt.getLastD 0 = -1
    · rw [if_pos h]
      have hf : (fun v : ℝ => v * (if pt.getLastD 0 ≠ -1 then 1 else 0)) = fun v => v * 0 := by
        funext v
        rw [if_neg (not_not_intro h)]
      rw [hf, map_mul_zero_eq_replicate]
    · rw [if_neg h]
      have hf : (fun v : ℝ => v * (if pt.getLastD 0 ≠ -1 then 1 else 0)) = fun v => v := by
        funext v
        rw [if_pos h, mul_one]
      rw [hf, List.map_id']
  constructor
  · simp only [CustomMaskingLayer, hpt]
  · simp only [CustomMaskingLayer, hpt, List.map_map]
    refine List.map_congr_left fun ev _ => ?_
    simp only [Function.comp, List.map_map]
    refine List.map_congr_left fun pt _ => ?_
    show (if pt.getLastD 0 = -1 then List.replicate pt.length 0 else pt).length = pt.length
    split <;> simp

/-! Claim C3: the accuracy metric formula and its cap. -/

/-- Claim C3: custom_accuracy_metric is 100 times the masked prediction sum
over the masked label sum plus 1e-8, capped by min so that it never exceeds
1000 whatever the inputs are. -/
theorem custom_accuracy_metric_spec (data : List (List (ℝ × ℝ))) :
    custom_accuracy_metric data =
      min (100 * (validPred data).sum / ((validTrue data).sum + 1e-8)) 1000 ∧
    custom_accuracy_metric data ≤ 1000 :=
  ⟨rfl, min_le_right _ _⟩

/-! Claim C1: points with the sentinel label -1.0 contribute zero to every
masked loss and to the metric, and are excluded from every normaliser.  This
is stated as insertion invariance: inserting a sentinel-labelled point with an
arbitrary prediction anywhere in the batch leaves all five losses and the
metric unchanged. -/

lemma sentinel_sum (r1 r2 : List (List (ℝ × ℝ))) (pre post : List (ℝ × ℝ))
    (p : ℝ) (f : ℝ × ℝ → ℝ) (hf : f (-1, p) = 0) :
    ((flatL (r1 ++ (pre ++ (-1, p) :: post) :: r2)).map f).sum =
    ((flatL (r1 ++ (pre ++ post) :: r2)).map f).sum := by
  rw [flatL_append, flatL_append, flatL_cons, flatL_cons]
  simp [List.map_append, List.sum_append, hf]

lemma sentinel_filter (r1 r2 : List (List (ℝ × ℝ))) (pre post : List (ℝ × ℝ))
    (p : ℝ) :
    (flatL (r1 ++ (pre ++ (-1, p) :: post) :: r2)).filter (fun q => q.1 ≠ -1) =
    (flatL (r1 ++ (pre ++ post) :: r2)).filter (fun q => q.1 ≠ -1) := by
  rw [flatL_append, flatL_append, flatL_cons, flatL_cons]
  simp only [List.filter_append, List.filter_cons]
  norm_num

lemma sentinel_maskSum (r1 r2 : List (List (ℝ × ℝ))) (pre post : List (ℝ × ℝ))
    (p : ℝ) :
    maskSum (r1 ++ (pre ++ (-1, p) :: post) :: r2) =
    maskSum (r1 ++ (pre ++ post) :: r2) := by
  unfold maskSum
  exact sentinel_sum r1 r2 pre post p _ (by simp [maskVal])

lemma sentinel_validPairs (r1 r2 : List (List (ℝ × ℝ))) (pre post : List (ℝ × ℝ))
    (p : ℝ) :
    validPairs (r1 ++ (pre ++ (-1, p) :: post) :: r2) =
    validPairs (r1 ++ (pre ++ post) :: r2) := by
  unfold validPairs
  exact sentinel_filter r1 r2 pre post p

lemma sentinel_dynamicRange (r1 r2 : List (List (ℝ × ℝ))) (pre post : List (ℝ × ℝ))
    (p : ℝ) :
    dynamicRange (r1 ++ (pre ++ (-1, p) :: post) :: r2) =
    dynamicRange (r1 ++ (pre ++ post) :: r2) := by
  unfold dynamicRange validTrue
  rw [sentinel_validPairs]

lemma sentinel_length (r1 r2 : List (List (ℝ × ℝ))) (pre post : List (ℝ × ℝ))
    (p : ℝ) :
    (r1 ++ (pre ++ (-1, p) :: post) :: r2).length =
    (r1 ++ (pre ++ post) :: r2).length := by
  simp

/-- Claim C1: inserting a point whose label is the sentinel -1.0 (with an
arbitrary prediction p) at an arbitrary position of an arbitrary batch row
changes none of masked_mse_bce_loss, masked_mae_loss, masked_mse_loss,
masked_huber_loss, masked_bce_loss and custom_accuracy_metric: such a point
contributes zero to each error sum and is excluded from each normalising
denominator (valid count, valid-label sum, and dynamic range). -/
theorem sentinel_exclusion_all_losses_and_metric
    (r1 r2 : List (List (ℝ × ℝ))) (pre post : List (ℝ × ℝ)) (p : ℝ) :
    masked_mse_bce_loss (r1 ++ (pre ++ (-1, p) :: post) :: r2) =
      masked_mse_bce_loss (r1 ++ (pre ++ post) :: r2) ∧
    masked_mae_loss (r1 ++ (pre ++ (-1, p) :: post) :: r2) =
      masked_mae_loss (r1 ++ (pre ++ post) :: r2) ∧
    masked_mse_loss (r1 ++ (pre ++ (-1, p) :: post) :: r2) =
      masked_mse_loss (r1 ++ (pre ++ post) :: r2) ∧
    masked_huber_loss (r1 ++ (pre ++ (-1, p) :: post) :: r2) =
      masked_huber_loss (r1 ++ (pre ++ post) :: r2) ∧
    masked_bce_loss (r1 ++ (pre ++ (-1, p) :: post) :: r2) =
      masked_bce_loss (r1 ++ (pre ++ post) :: r2) ∧
    custom_accuracy_metric (r1 ++ (pre ++ (-1, p) :: post) :: r2) =
      custom_accuracy_metric (r1 ++ (pre ++ post) :: r2) := by
  have hdr := sentinel_dynamicRange r1 r2 pre post p
  have hms := sentinel_maskSum r1 r2 pre post p
  have hvp := sentinel_validPairs r1 r2 pre post p
  have hlen := sentinel_length r1 r2 pre post p
  refine ⟨?_, ?_, ?_, ?_, ?_, ?_⟩
  · unfold masked_mse_bce_loss
    rw [hdr, hms,
      sentinel_sum r1 r2 pre post p _ (by simp [maskVal]),
      sentinel_sum r1 r2 pre post p _ (by simp [maskVal])]
  · unfold masked_mae_loss
    rw [hdr, hms, sentinel_sum r1 r2 pre post p _ (by simp [maskVal])]
  · unfold masked_mse_loss
    rw [hdr, hms, sentinel_sum r1 r2 pre post p _ (by simp [maskVal])]
  · unfold masked_huber_loss
    rw [hms, hlen, sentinel_sum r1 r2 pre post p _ (by simp [maskVal])]
  · unfold masked_bce_loss
    rw [hms, hlen, sentinel_sum r1 r2 pre post p _ (by simp [maskVal])]
  · unfold custom_accuracy_metric sumPredMasked sumTrueMasked validPred validTrue
    rw [hvp]

/-! Claim C8: the loss denominators have no epsilon guard, the metric's does. -/

lemma maskVal_nonneg (t : ℝ) : 0 ≤ maskVal t := by
  unfold maskVal
  split <;> norm_num

lemma maskVal_eq_zero_iff (t : ℝ) : maskVal t = 0 ↔ t = -1 := by
  unfold maskVal
  split <;> simp_all

/-- Claim C8 (amended): every masked loss divides by maskSum, the sum of the
valid mask, with no epsilon: that denominator vanishes exactly when every
label of the batch is the sentinel -1.0 (so the losses are well-defined only
when at least one label differs from -1.0).  custom_accuracy_metric instead
divides by sumTrueMasked + 1e-8, which is nonzero whenever the masked label
sum is nonnegative — but not for every input (see the counterexample). -/
theorem loss_denominators_unguarded_metric_guarded :
    (∀ data : List (List (ℝ × ℝ)),
      (maskSum data = 0 ↔ ∀ q ∈ flatL data, q.1 = -1)) ∧
    (∀ data : List (List (ℝ × ℝ)),
      0 ≤ sumTrueMasked data → 0 < sumTrueMasked data + 1e-8) := by
  constructor
  · intro data
    unfold maskSum
    rw [sum_map_eq_zero_iff _ _ fun q _ => maskVal_nonneg q.1]
    constructor
    · intro H q hq
      exact (maskVal_eq_zero_iff q.1).mp (H q hq)
    · intro H q hq
      exact (maskVal_eq_zero_iff q.1).mpr (H q hq)
  · intro data h
    norm_num
    linarith

/-- Counterexample to claim C8's "well-defined for every input": at the single
non-sentinel point with label -1e-8 the metric's guarded denominator
sumTrueMasked + 1e-8 is exactly zero, so the division is not guarded for
arbitrary real labels. -/
theorem accuracy_denominator_vanishes :
    sumTrueMasked [[(-(1e-8 : ℝ), (0 : ℝ))]] + 1e-8 = 0 := by
  norm_num [sumTrueMasked, validTrue, validPairs, flatL, List.filter_cons]

/-- Witness for loss_denominators_unguarded_metric_guarded: the all-sentinel
batch [[(-1, 5)]] has maskSum zero, and a batch with masked label sum 2 has a
positive guarded denominator. -/
theorem loss_denominators_unguarded_metric_guarded_witness :
    maskSum [[((-1 : ℝ), (5 : ℝ))]] = 0 ∧
    0 < sumTrueMasked [[((2 : ℝ), (3 : ℝ))]] + 1e-8 :=
  ⟨(loss_denominators_unguarded_metric_guarded.1 _).mpr (by
      intro q hq
      simp only [flatL_cons, flatL, List.foldr, List.append_nil, List.mem_singleton] at hq
      rw [hq]),
   loss_denominators_unguarded_metric_guarded.2 _ (by
      norm_num [sumTrueMasked, validTrue, validPairs, flatL, List.filter_cons])⟩

/-! Claims C6 and C9: the OrthogonalRegularizer penalty. -/

lemma chunk_nil {α : Type} (n : ℕ) : chunk n ([] : List α) = [] := by
  rw [chunk]
  simp

lemma chunk_step {α : Type} (n : ℕ) (v : List α) (hv : v ≠ []) (hn : n ≠ 0) :
    chunk n v = v.take n :: chunk n (v.drop n) := by
  rw [chunk]
  simp [hv, hn]

lemma chunk_replicate {α : Type} (k n : ℕ) (a : α) (hn : 0 < n) :
    chunk n (List.replicate (k * n) a) = List.replicate k (List.replicate n a) := by
  induction k with
  | zero => simp [chunk_nil]
  | succ k ih =>
    have hne : List.replicate ((k + 1) * n) a ≠ [] := by
      simp [Nat.succ_mul]
      omega
    rw [chunk_step n _ hne hn.ne', List.take_replicate, List.drop_replicate]
    have h1 : min n ((k + 1) * n) = n := by
      have : n ≤ (k + 1) * n := Nat.le_mul_of_pos_left n (Nat.succ_pos k)
      omega
    have h2 : (k + 1) * n - n = k * n := by
      rw [Nat.succ_mul]
      omega
    rw [h1, h2, ih, List.replicate_succ]

lemma chunk_flatL {α : Type} (n : ℕ) (hn : 0 < n) :
    ∀ rows : List (List α), (∀ r ∈ rows, r.length = n) →
      chunk n (flatL rows) = rows := by
  intro rows
  induction rows with
  | nil => intro _; exact chunk_nil n
  | cons r rest ih =>
    intro h
    have hr : r.length = n := h r (List.mem_cons_self r rest)
    have hrne : r ≠ [] := by
      intro hc
      rw [hc] at hr
      simp at hr
      omega
    rw [flatL_cons, chunk_step n _ (by simp [hrne]) hn.ne']
    rw [List.take_left' hr, List.drop_left' hr]
    rw [ih fun r hr => h r (List.mem_cons_of_mem _ hr)]

lemma getD_map_range {α : Type} (n i : ℕ) (f : ℕ → α) (d : α) (hi : i < n) :
    (((List.range n).map f).getD i d) = f i := by
  rw [List.getD_eq_getElem?_getD, List.getElem?_map, List.getElem?_range hi]
  rfl

lemma zipWith_mul_map_same {α : Type} (l : List α) (f g : α → ℝ) :
    List.zipWith (· * ·) (l.map f) (l.map g) = l.map fun x => f x * g x := by
  induction l with
  | nil => rfl
  | cons a t ih => simp [ih]

lemma sum_delta_mul (n i j : ℕ) (hi : i < n) :
    ((List.range n).map fun t =>
      (if i = t then (1 : ℝ) else 0) * (if j = t then 1 else 0)).sum =
    if i = j then 1 else 0 := by
  induction n with
  | zero => omega
  | succ n ih =>
    rw [List.range_succ, List.map_append, List.sum_append]
    simp only [List.map_cons, List.map_nil, List.sum_cons, List.sum_nil, add_zero]
    rcases Nat.lt_or_ge i n with h | h
    · rw [ih h, if_neg (Nat.ne_of_lt h)]
      simp
    · have hin : i = n := by omega
      subst hin
      have hpre : ((List.range i).map fun t =>
          (if i = t then (1 : ℝ) else 0) * (if j = t then 1 else 0)).sum = 0 := by
        apply List.sum_eq_zero
        intro x hx
        obtain ⟨t, ht, rfl⟩ := List.mem_map.mp hx
        rw [if_neg (Nat.ne_of_gt (List.mem_range.mp ht))]
        ring
      rw [hpre, zero_add, if_pos rfl, one_mul]
      by_cases hj : i = j
      · rw [if_pos hj, if_pos hj.symm]
      · rw [if_neg hj, if_neg fun hc => hj hc.symm]

lemma dot_identity_rows (n i j : ℕ) (hi : i < n) :
    dot ((List.range n).map fun t => if i = t then (1 : ℝ) else 0)
        ((List.range n).map fun t => if j = t then (1 : ℝ) else 0) =
    if i = j then 1 else 0 := by
  rw [dot, zipWith_mul_map_same]
  exact sum_delta_mul n i j hi

lemma orthReg_nonneg (nf : ℕ) (l2 : ℝ) (v : List ℝ) (h : 0 ≤ l2) :
    0 ≤ OrthogonalRegularizer nf l2 v := by
  unfold OrthogonalRegularizer
  refine sum_map_nonneg _ _ fun b1 _ => ?_
  refine sum_map_nonneg _ _ fun i _ => ?_
  refine sum_map_nonneg _ _ fun b2 _ => ?_
  refine sum_map_nonneg _ _ fun j _ => ?_
  exact mul_nonneg h (sq_nonneg _)

lemma orthReg_single_iff (nf : ℕ) (l2 : ℝ) (v : List ℝ) (h1 : 0 < l2)
    (h2 : v.length = nf * nf) (h3 : 0 < nf) :
    (OrthogonalRegularizer nf l2 v = 0 ↔
      ∀ i < nf, ∀ j < nf,
        dot ((chunk nf v).getD i []) ((chunk nf v).getD j []) =
          if i = j then 1 else 0) := by
  have hk : v.length / (nf * nf) = 1 := by
    rw [h2]
    exact Nat.div_self (Nat.mul_pos h3 h3)
  unfold OrthogonalRegularizer
  rw [hk]
  have hr1 : List.range 1 = [0] := rfl
  simp only [hr1, List.map_cons, List.map_nil, List.sum_cons,
    List.sum_nil, add_zero, zero_mul, zero_add, mul_one, Nat.add_zero]
  have houter : ∀ i ∈ List.range nf, (0 : ℝ) ≤
      ((List.range nf).map fun j =>
        l2 * (dot ((chunk nf v).getD i []) ((chunk nf v).getD j []) -
          if i % nf = j then (1 : ℝ) else 0) ^ 2).sum :=
    fun i _ => sum_map_nonneg _ _ fun j _ => mul_nonneg h1.le (sq_nonneg _)
  rw [sum_map_eq_zero_iff _ _ houter]
  constructor
  · intro H i hi j hj
    have hone := H i (List.mem_range.mpr hi)
    rw [sum_map_eq_zero_iff _ _ fun j _ => mul_nonneg h1.le (sq_nonneg _)] at hone
    have := hone j (List.mem_range.mpr hj)
    rw [Nat.mod_eq_of_lt hi] at this
    rcases mul_eq_zero.mp this with hc | hc
    · exact absurd hc h1.ne'
    · have := pow_eq_zero_iff (n := 2) (by norm_num) |>.mp hc
      linarith [sub_eq_zero.mp this]
  · intro H i hi
    rw [sum_map_eq_zero_iff _ _ fun j _ => mul_nonneg h1.le (sq_nonneg _)]
    intro j hj
    rw [Nat.mod_eq_of_lt (List.mem_range.mp hi),
      H i (List.mem_range.mp hi) j (List.mem_range.mp hj)]
    simp

lemma identityMat_row_lengths (n : ℕ) : ∀ r ∈ identityMat n, r.length = n := by
  intro r hr
  obtain ⟨i, _, rfl⟩ := List.mem_map.mp hr
  simp

lemma identityFlat_length (n : ℕ) : (identityFlat n).length = n * n := by
  unfold identityFlat
  rw [flatL_length_const _ n (identityMat_row_lengths n)]
  simp [identityMat]

lemma chunk_identityFlat (n : ℕ) (hn : 0 < n) :
    chunk n (identityFlat n) = identityMat n :=
  chunk_flatL n hn (identityMat n) (identityMat_row_lengths n)

lemma identity_dot (n i j : ℕ) (hi : i < n) (hj : j < n) :
    dot ((chunk n (identityFlat n)).getD i []) ((chunk n (identityFlat n)).getD j []) =
      if i = j then 1 else 0 := by
  rw [chunk_identityFlat n (lt_of_le_of_lt (Nat.zero_le i) hi), identityMat,
    getD_map_range n i _ _ hi, getD_map_range n j _ _ hj]
  exact dot_identity_rows n i j hi

/-- Claim C9 (amended): for nonnegative-weight inputs the OrthogonalRegularizer
value is nonnegative, and for an input that reshapes to exactly one
num_features x num_features matrix A (length nf * nf) it vanishes exactly when
A A^T is the identity; with several reshaped matrices per-matrix orthogonality
is not sufficient because tf.tensordot(A, A, axes=(2, 2)) also couples rows of
distinct matrices (see the counterexample). -/
theorem orthogonal_regularizer_characterization (nf : ℕ) (l2 : ℝ) (v : List ℝ)
    (h1 : 0 < l2) (h2 : v.length = nf * nf) (h3 : 0 < nf) :
    0 ≤ OrthogonalRegularizer nf l2 v ∧
    (OrthogonalRegularizer nf l2 v = 0 ↔
      ∀ i < nf, ∀ j < nf,
        dot ((chunk nf v).getD i []) ((chunk nf v).getD j []) =
          if i = j then 1 else 0) :=
  ⟨orthReg_nonneg nf l2 v h1.le, orthReg_single_iff nf l2 v h1 h2 h3⟩

/-- Witness for orthogonal_regularizer_characterization at nf = 2, l2 = 1 and
the flattened 2 x 2 identity. -/
theorem orthogonal_regularizer_characterization_witness :
    0 ≤ OrthogonalRegularizer 2 1 (identityFlat 2) ∧
    (OrthogonalRegularizer 2 1 (identityFlat 2) = 0 ↔
      ∀ i < 2, ∀ j < 2,
        dot ((chunk 2 (identityFlat 2)).getD i []) ((chunk 2 (identityFlat 2)).getD j []) =
          if i = j then 1 else 0) :=
  orthogonal_regularizer_characterization 2 1 (identityFlat 2) (by norm_num)
    (identityFlat_length 2) (by norm_num)

/-- Counterexample to claim C9 as stated: the input [1, -1] with
num_features = 1 reshapes to the two 1 x 1 matrices [[1]] and [[-1]], each of
which satisfies A A^T = I, yet the regularizer value is 0.008, not zero: the
tensordot couples the two matrices. -/
theorem per_matrix_orthogonality_insufficient :
    (∀ i < 2, dot ((chunk 1 [(1 : ℝ), -1]).getD i [])
      ((chunk 1 [(1 : ℝ), -1]).getD i []) = 1) ∧
    OrthogonalRegularizer 1 0.001 [(1 : ℝ), -1] ≠ 0 := by
  have hc : chunk 1 [(1 : ℝ), -1] = [[1], [-1]] := by
    rw [chunk_step 1 _ (by simp) one_ne_zero]
    norm_num
    rw [chunk_step 1 _ (by simp) one_ne_zero]
    norm_num
    exact chunk_nil 1
  constructor
  · intro i hi
    interval_cases i <;> simp [hc, dot]
  · unfold OrthogonalRegularizer
    have hr2 : List.range 2 = [0, 1] := rfl
    have hr1 : List.range 1 = [0] := rfl
    norm_num [hr2, hr1, hc, dot]

/-- Claim C6 (amended): the OrthogonalRegularizer penalty (as attached to the
final TNet dense layer, here with num_features = 6 and the default
l2 = 0.001) is nonnegative on every input and vanishes on the flattened
identity matrix, so the identity is a global minimiser of the penalty — but
not the only one (see the counterexample). -/
theorem orthogonal_penalty_minimal_at_identity :
    (∀ v : List ℝ, 0 ≤ OrthogonalRegularizer 6 0.001 v) ∧
    OrthogonalRegularizer 6 0.001 (identityFlat 6) = 0 := by
  refine ⟨fun v => orthReg_nonneg 6 0.001 v (by norm_num), ?_⟩
  rw [(orthReg_single_iff 6 0.001 (identityFlat 6) (by norm_num)
    (identityFlat_length 6) (by norm_num))]
  intro i hi j hj
  exact identity_dot 6 i j hi hj

/-- The 6 x 6 identity with its first row negated, as a list of rows. -/
def negIdRows : List (List ℝ) :=
  [[-1, 0, 0, 0, 0, 0], [0, 1, 0, 0, 0, 0], [0, 0, 1, 0, 0, 0],
   [0, 0, 0, 1, 0, 0], [0, 0, 0, 0, 1, 0], [0, 0, 0, 0, 0, 1]]

/-- The 6 x 6 identity with its first row negated, flattened row-major. -/
def negIdFlat : List ℝ := flatL negIdRows

/-- Counterexample to claim C6's "minimal exactly there": the matrix
diag(-1, 1, 1, 1, 1, 1) also satisfies A A^T = I, so the penalty is also zero
(hence minimal) at this non-identity matrix; the penalty's minimum is attained
on all orthogonal matrices, not exactly at the identity. -/
theorem orthogonal_penalty_zero_off_identity :
    OrthogonalRegularizer 6 0.001 negIdFlat = 0 ∧ negIdFlat ≠ identityFlat 6 := by
  have hrows : ∀ r ∈ negIdRows, r.length = 6 := by
    intro r hr
    simp [negIdRows] at hr
    rcases hr with rfl | rfl | rfl | rfl | rfl | rfl <;> rfl
  have hlen : negIdFlat.length = 6 * 6 := by
    unfold negIdFlat
    rw [flatL_length_const _ 6 hrows]
    rfl
  have hc : chunk 6 negIdFlat = negIdRows := chunk_flatL 6 (by norm_num) negIdRows hrows
  constructor
  · rw [(orthReg_single_iff 6 0.001 negIdFlat (by norm_num) hlen (by norm_num))]
    intro i hi j hj
    rw [hc]
    interval_cases i <;> interval_cases j <;> norm_num [negIdRows, dot, List.getD]
  · intro hEq
    have h0 := congrArg (fun l => l.getD 0 0) hEq
    have h16 : List.range 6 = [0, 1, 2, 3, 4, 5] := rfl
    norm_num [negIdFlat, negIdRows, flatL, identityFlat, identityMat, h16,
      List.getD] at h0

/-! Model lemmas: evaluation of PointNetSegmentation under the all-zero
weights (for concrete counterexamples and witnesses). -/

lemma zip_replicate_same {α β : Type} (n : ℕ) (a : α) (b : β) :
    List.zip (List.replicate n a) (List.replicate n b) = List.replicate n (a, b) := by
  induction n with
  | zero => rfl
  | succ n ih => simp [List.replicate_succ, ih]

lemma dot_replicate_zero_left (m : ℕ) (x : List ℝ) :
    dot (List.replicate m 0) x = 0 := by
  unfold dot
  induction m generalizing x with
  | zero => rfl
  | succ m ih =>
    cases x with
    | nil => rfl
    | cons a t => simp [List.replicate_succ, ih t]

lemma denseV_zero (nOut nIn : ℕ) (x : List ℝ) :
    denseV (List.replicate nOut (List.replicate nIn 0)) (List.replicate nOut 0) x =
      List.replicate nOut 0 := by
  unfold denseV
  rw [zip_replicate_same, List.map_replicate]
  simp [dot_replicate_zero_left]

lemma reluV_replicate_zero (n : ℕ) :
    reluV (List.replicate n 0) = List.replicate n 0 := by
  simp [reluV, List.map_replicate, relu]

lemma bnApply_zero_gamma (x : List ℝ) (n : ℕ) :
    bnApply (List.replicate n ⟨0, 0, 0, 1⟩) x = List.replicate (min x.length n) 0 := by
  unfold bnApply
  induction x generalizing n with
  | nil => simp
  | cons a t ih =>
    cases n with
    | zero => simp
    | succ n =>
      simp only [List.replicate_succ, List.zipWith_cons_cons, ih n,
        List.length_cons, Nat.succ_min_succ]
      norm_num [List.replicate_succ]

lemma convPoint_zero (nOut nIn : ℕ) (x : List ℝ) :
    convPoint (zeroLayer nOut nIn) x = List.replicate nOut 0 := by
  unfold convPoint zeroLayer
  simp only [denseV_zero, reluV_replicate_zero, bnApply_zero_gamma,
    List.length_replicate, min_self]

lemma dense_block_zero (nOut nIn : ℕ) (x : List ℝ) :
    dense_block (zeroLayer nOut nIn) x = List.replicate nOut 0 := by
  unfold dense_block zeroLayer
  simp only [denseV_zero, bnApply_zero_gamma, List.length_replicate, min_self,
    reluV_replicate_zero]

lemma conv_mlp_zero (nOut nIn : ℕ) (pts : List (List ℝ)) :
    conv_mlp (zeroLayer nOut nIn) pts = pts.map fun _ => List.replicate nOut 0 := by
  unfold conv_mlp
  exact List.map_congr_left fun x _ => convPoint_zero nOut nIn x

lemma scaleV_replicate_zero (c : ℝ) (n : ℕ) :
    scaleV c (List.replicate n 0) = List.replicate n 0 := by
  simp [scaleV, List.map_replicate]

lemma addV_replicate_zero (n : ℕ) :
    addV (List.replicate n 0) (List.replicate n 0) = List.replicate n 0 := by
  unfold addV
  induction n with
  | zero => rfl
  | succ n ih => simp [List.replicate_succ, ih]

lemma sumVL_all_zero (n : ℕ) (l : List (List ℝ))
    (h : ∀ v ∈ l, v = List.replicate n 0) : sumVL n l = List.replicate n 0 := by
  induction l with
  | nil => rfl
  | cons a t ih =>
    show addV a (sumVL n t) = List.replicate n 0
    rw [h a (List.mem_cons_self a t), ih fun v hv => h v (List.mem_cons_of_mem _ hv),
      addV_replicate_zero]

lemma vecMat_zero_matrix (n m : ℕ) (p : List ℝ) :
    vecMat n p (List.replicate m (List.replicate n 0)) = List.replicate n 0 := by
  unfold vecMat
  apply sumVL_all_zero
  intro v hv
  obtain ⟨q, hq, rfl⟩ := List.mem_map.mp hv
  have := (List.of_mem_zip hq).2
  rw [List.eq_of_mem_replicate this, scaleV_replicate_zero]

lemma globalMaxPool_singleton (x : List ℝ) : globalMaxPool [x] = x := rfl

lemma TNet_zero1_single (pt : List ℝ) :
    TNet zeroTNet1 6 [pt] = List.replicate 6 (List.replicate 6 0) := by
  unfold TNet zeroTNet1
  simp only [conv_mlp_zero, List.map_cons, List.map_nil, globalMaxPool_singleton,
    dense_block_zero]
  have h36 : (36 : ℕ) = 6 * 6 := rfl
  rw [h36, chunk_replicate 6 6 (0 : ℝ) (by norm_num)]

lemma TNet_zero2_single (pt : List ℝ) :
    TNet zeroTNet2 64 [pt] = List.replicate 64 (List.replicate 64 0) := by
  unfold TNet zeroTNet2
  simp only [conv_mlp_zero, List.map_cons, List.map_nil, globalMaxPool_singleton,
    dense_block_zero]
  have h4096 : (4096 : ℕ) = 64 * 64 := rfl
  rw [h4096, chunk_replicate 64 64 (0 : ℝ) (by norm_num)]

lemma pointFeaturesOf_zero_single (pt : List ℝ) :
    pointFeaturesOf zeroPN [pt] = [List.replicate 64 0] := by
  unfold pointFeaturesOf zeroPN
  simp only [TNet_zero1_single, List.map_cons, List.map_nil, vecMat_zero_matrix,
    conv_mlp_zero]

lemma globalFeatureOf_zero_single (pt : List ℝ) :
    globalFeatureOf zeroPN [pt] = List.replicate 5120 0 := by
  unfold globalFeatureOf deepFeaturesOf
  rw [pointFeaturesOf_zero_single]
  show globalMaxPool (conv_mlp zeroPN.c5 (conv_mlp zeroPN.c4 (conv_mlp zeroPN.c3
    ([List.replicate 64 0].map fun p => vecMat 64 p (TNet zeroPN.t2 64 [List.replicate 64 0])))))
    = List.replicate 5120 0
  have ht2 : zeroPN.t2 = zeroTNet2 := rfl
  rw [ht2, TNet_zero2_single]
  simp only [List.map_cons, List.map_nil, vecMat_zero_matrix]
  have hc3 : zeroPN.c3 = zeroLayer 320 64 := rfl
  have hc4 : zeroPN.c4 = zeroLayer 640 320 := rfl
  have hc5 : zeroPN.c5 = zeroLayer 5120 640 := rfl
  rw [hc3, hc4, hc5]
  simp only [conv_mlp_zero, List.map_cons, List.map_nil, globalMaxPool_singleton]

lemma sigmoid_zero : sigmoid 0 = 1 / 2 := by
  unfold sigmoid
  rw [neg_zero, Real.exp_zero]
  norm_num

/-- Forward value of PointNetSegmentation with the all-zero weights on a
single-point cloud: every score is 0, so the prediction is
sigmoid 0 * (the point's energy feature). -/
lemma zeroPN_eval (pt : List ℝ) :
    PointNetSegmentation zeroPN [pt] = [[sigmoid 0 * pt.getD 4 0]] := by
  unfold PointNetSegmentation
  rw [pointFeaturesOf_zero_single, globalFeatureOf_zero_single]
  simp only [List.map_cons, List.map_nil]
  have happ : List.replicate 64 (0 : ℝ) ++ List.replicate 5120 0 =
      List.replicate 5184 0 := by
    rw [← List.replicate_add]
  rw [happ]
  have hc6 : zeroPN.c6 = zeroLayer 2560 5184 := rfl
  have hc7 : zeroPN.c7 = zeroLayer 1280 2560 := rfl
  have hc8 : zeroPN.c8 = zeroLayer 640 1280 := rfl
  rw [hc6, hc7, hc8]
  simp only [conv_mlp_zero, List.map_cons, List.map_nil]
  have hsegW : zeroPN.segW = List.replicate 1 (List.replicate 640 0) := rfl
  have hsegB : zeroPN.segB = List.replicate 1 0 := rfl
  rw [hsegW, hsegB]
  simp only [List.zipWith_cons_cons, List.zipWith_nil, denseV_zero]
  simp [List.replicate_one]

/-! Permutation invariance of GlobalMaxPooling1D and equivariance of the
per-point pipeline (claim C4), and the map form of the forward pass used by
claims C2 and C5. -/

lemma zipWith_max_comm (a b : List ℝ) :
    List.zipWith max a b = List.zipWith max b a := by
  induction a generalizing b with
  | nil => cases b <;> rfl
  | cons x t ih =>
    cases b with
    | nil => rfl
    | cons y u => simp [ih u, max_comm]

lemma zipWith_max_assoc (a b c : List ℝ) :
    List.zipWith max (List.zipWith max a b) c =
      List.zipWith max a (List.zipWith max b c) := by
  induction a generalizing b c with
  | nil => rfl
  | cons x t ih =>
    cases b with
    | nil => rfl
    | cons y u =>
      cases c with
      | nil => rfl
      | cons z v => simp [ih u v, max_assoc]

lemma foldl_zmax_lift (L : List (List ℝ)) :
    ∀ i j : List ℝ,
      L.foldl (fun acc v => List.zipWith max acc v) (List.zipWith max i j) =
      List.zipWith max i (L.foldl (fun acc v => List.zipWith max acc v) j) := by
  induction L with
  | nil => intro i j; rfl
  | cons a t ih =>
    intro i j
    show t.foldl _ (List.zipWith max (List.zipWith max i j) a) = _
    rw [zipWith_max_assoc, ih i (List.zipWith max j a)]
    rfl

lemma foldl_into_globalMaxPool (h : List ℝ) (t : List (List ℝ)) (i : List ℝ) :
    (h :: t).foldl (fun acc v => List.zipWith max acc v) i =
      List.zipWith max i (globalMaxPool (h :: t)) := by
  show t.foldl _ (List.zipWith max i h) = _
  rw [foldl_zmax_lift t i h]
  rfl

lemma globalMaxPool_perm {l₁ l₂ : List (List ℝ)} (h : l₁.Perm l₂) :
    globalMaxPool l₁ = globalMaxPool l₂ := by
  induction h with
  | nil => rfl
  | cons x h ih =>
    rename_i xs₁ xs₂
    cases xs₁ with
    | nil =>
      have : xs₂ = [] := h.symm.eq_nil
      rw [this]
    | cons a t =>
      cases xs₂ with
      | nil =>
        have := h.length_eq
        simp at this
      | cons b u =>
        show (a :: t).foldl _ x = (b :: u).foldl _ x
        rw [foldl_into_globalMaxPool a t x, foldl_into_globalMaxPool b u x, ih]
  | swap x y l =>
    show l.foldl _ (List.zipWith max y x) = l.foldl _ (List.zipWith max x y)
    rw [zipWith_max_comm]
  | trans _ _ ih1 ih2 => exact ih1.trans ih2

lemma zipWith_map_left_self {α β γ : Type} (l : List α) (u : α → β) (f : β → α → γ) :
    List.zipWith f (l.map u) l = l.map fun x => f (u x) x := by
  induction l with
  | nil => rfl
  | cons a t ih => simp [ih]

lemma TNet_perm (tp : TNetParams) (size : ℕ) {pts₁ pts₂ : List (List ℝ)}
    (h : pts₁.Perm pts₂) : TNet tp size pts₁ = TNet tp size pts₂ := by
  unfold TNet conv_mlp
  rw [globalMaxPool_perm (((h.map (convPoint tp.c1)).map (convPoint tp.c2)).map
    (convPoint tp.c3))]

lemma pointFeaturesOf_as_map (P : PNetParams) (pts : List (List ℝ)) :
    pointFeaturesOf P pts = pts.map (pfPoint P (TNet P.t1 6 pts)) := by
  unfold pointFeaturesOf conv_mlp pfPoint
  rw [List.map_map, List.map_map]
  rfl

lemma pointFeaturesOf_perm (P : PNetParams) {pts₁ pts₂ : List (List ℝ)}
    (h : pts₁.Perm pts₂) :
    (pointFeaturesOf P pts₁).Perm (pointFeaturesOf P pts₂) := by
  rw [pointFeaturesOf_as_map, pointFeaturesOf_as_map, TNet_perm P.t1 6 h.symm]
  exact h.map _

lemma globalFeatureOf_perm (P : PNetParams) {pts₁ pts₂ : List (List ℝ)}
    (h : pts₁.Perm pts₂) : globalFeatureOf P pts₁ = globalFeatureOf P pts₂ := by
  have hpf := pointFeaturesOf_perm P h
  have hM2 : TNet P.t2 64 (pointFeaturesOf P pts₁) =
      TNet P.t2 64 (pointFeaturesOf P pts₂) := TNet_perm P.t2 64 hpf
  unfold globalFeatureOf deepFeaturesOf conv_mlp
  rw [hM2]
  exact globalMaxPool_perm ((((hpf.map _).map _).map _).map _)

lemma PointNetSegmentation_as_map (P : PNetParams) (pts : List (List ℝ)) :
    PointNetSegmentation P pts =
      pts.map (segPoint P (TNet P.t1 6 pts) (globalFeatureOf P pts)) := by
  unfold PointNetSegmentation segPoint conv_mlp
  rw [pointFeaturesOf_as_map, List.map_map, List.map_map, List.map_map,
    List.map_map]
  rw [zipWith_map_left_self]
  rfl

lemma PointNetSegmentation_perm_map (P : PNetParams) {pts₁ pts₂ : List (List ℝ)}
    (h : pts₁.Perm pts₂) :
    PointNetSegmentation P pts₂ =
      pts₂.map (segPoint P (TNet P.t1 6 pts₁) (globalFeatureOf P pts₁)) := by
  rw [PointNetSegmentation_as_map, TNet_perm P.t1 6 h.symm,
    globalFeatureOf_perm P h.symm]

/-- Claim C4: reordering the input points leaves the globally max-pooled
feature of PointNetSegmentation unchanged, and the per-point outputs are the
same values permuted correspondingly: both orderings compute the pointwise
image of the inputs under one common per-point function, so the output lists
are related by the same permutation as the inputs. -/
theorem pointnet_permutation_equivariance (P : PNetParams)
    (pts₁ pts₂ : List (List ℝ)) (h : pts₁.Perm pts₂) :
    globalFeatureOf P pts₁ = globalFeatureOf P pts₂ ∧
    ∃ F : List ℝ → List ℝ,
      PointNetSegmentation P pts₁ = pts₁.map F ∧
      PointNetSegmentation P pts₂ = pts₂.map F ∧
      (PointNetSegmentation P pts₁).Perm (PointNetSegmentation P pts₂) := by
  refine ⟨globalFeatureOf_perm P h,
    segPoint P (TNet P.t1 6 pts₁) (globalFeatureOf P pts₁),
    PointNetSegmentation_as_map P pts₁, PointNetSegmentation_perm_map P h, ?_⟩
  rw [PointNetSegmentation_as_map P pts₁, PointNetSegmentation_perm_map P h]
  exact h.map _

/-- Witness for pointnet_permutation_equivariance: the all-zero weights and
the two-point cloud [[1], [2]] against its transposition [[2], [1]]. -/
theorem pointnet_permutation_equivariance_witness :
    globalFeatureOf zeroPN [[(1 : ℝ)], [2]] = globalFeatureOf zeroPN [[2], [(1 : ℝ)]] ∧
    ∃ F : List ℝ → List ℝ,
      PointNetSegmentation zeroPN [[(1 : ℝ)], [2]] = [[(1 : ℝ)], [2]].map F ∧
      PointNetSegmentation zeroPN [[2], [(1 : ℝ)]] = [[2], [(1 : ℝ)]].map F ∧
      (PointNetSegmentation zeroPN [[(1 : ℝ)], [2]]).Perm
        (PointNetSegmentation zeroPN [[2], [(1 : ℝ)]]) :=
  pointnet_permutation_equivariance zeroPN _ _ (List.Perm.swap _ _ _)

/-! Claims C2 and C5: the segmentation head output. -/

lemma sigmoid_pos (x : ℝ) : 0 < sigmoid x := by
  unfold sigmoid
  positivity

lemma sigmoid_lt_one (x : ℝ) : sigmoid x < 1 := by
  unfold sigmoid
  rw [div_lt_one (by positivity)]
  linarith [Real.exp_pos (-x)]

lemma PointNetSegmentation_get? (P : PNetParams) (pts : List (List ℝ)) (i : ℕ)
    (p : List ℝ) (hp : pts.get? i = some p) :
    (PointNetSegmentation P pts).get? i =
      some (segPoint P (TNet P.t1 6 pts) (globalFeatureOf P pts) p) := by
  rw [PointNetSegmentation_as_map, List.get?_map, hp]
  rfl

/-- Claim C2 (amended): PointNetSegmentation never applies CustomMaskingLayer;
the prediction at any point (sentinel-typed or not) is sigmoid(score) times
that point's energy feature (index 4), so it is zero precisely when the energy
feature is zero — the type feature -1 by itself does not zero the
prediction. -/
theorem prediction_zero_iff_energy_zero (P : PNetParams) (pts : List (List ℝ))
    (i : ℕ) (p out : List ℝ) (hp : pts.get? i = some p)
    (hout : (PointNetSegmentation P pts).get? i = some out) :
    ∀ o ∈ out, (p.getD 4 0 = 0 → o = 0) ∧ (p.getD 4 0 ≠ 0 → o ≠ 0) := by
  rw [PointNetSegmentation_get? P pts i p hp, Option.some_inj] at hout
  subst hout
  intro o ho
  unfold segPoint at ho
  obtain ⟨s, _, rfl⟩ := List.mem_map.mp ho
  constructor
  · intro he
    rw [he, mul_zero]
  · intro he
    exact mul_ne_zero (sigmoid_pos s).ne' he

/-- Counterexample to claim C2 as stated: under the all-zero weights, the
single-point cloud whose point has type -1 (a padding point) and energy
feature 1 receives the nonzero prediction 1/2 — the sentinel type does not
mask the prediction, because CustomMaskingLayer is never used in
PointNetSegmentation. -/
theorem sentinel_point_prediction_nonzero :
    PointNetSegmentation zeroPN [[0, 0, 0, 0, 1, -1]] = [[(1 / 2 : ℝ)]] ∧
    (1 / 2 : ℝ) ≠ 0 := by
  constructor
  · rw [zeroPN_eval]
    norm_num [List.getD, sigmoid_zero]
  · norm_num

/-- Witness for prediction_zero_iff_energy_zero: the all-zero weights and a
sentinel-typed point with zero energy feature, whose prediction is zero. -/
theorem prediction_zero_iff_energy_zero_witness :
    sigmoid 0 * (([0, 0, 0, 0, 0, -1] : List ℝ).getD 4 0) = 0 :=
  (prediction_zero_iff_energy_zero zeroPN [[0, 0, 0, 0, 0, -1]] 0
    [0, 0, 0, 0, 0, -1] [sigmoid 0 * (([0, 0, 0, 0, 0, -1] : List ℝ).getD 4 0)]
    rfl (by rw [zeroPN_eval]; rfl)
    (sigmoid 0 * (([0, 0, 0, 0, 0, -1] : List ℝ).getD 4 0))
    (List.mem_singleton.mpr rfl)).1
    (by norm_num [List.getD])

/-- Claim C5 (amended): every per-point output value of PointNetSegmentation
is sigmoid(score) * energy with sigmoid(score) strictly between 0 and 1;
consequently, when the point's energy feature is nonzero the output has the
same sign as and strictly smaller magnitude than the energy, and when the
energy feature is zero the output equals zero (so its magnitude is not
strictly smaller). -/
theorem segmentation_output_bounds (P : PNetParams) (pts : List (List ℝ))
    (i : ℕ) (p out : List ℝ) (hp : pts.get? i = some p)
    (hout : (PointNetSegmentation P pts).get? i = some out) :
    ∀ o ∈ out, ∃ s : ℝ,
      o = sigmoid s * p.getD 4 0 ∧ 0 < sigmoid s ∧ sigmoid s < 1 ∧
      (0 < p.getD 4 0 → 0 < o ∧ o < p.getD 4 0) ∧
      (p.getD 4 0 < 0 → p.getD 4 0 < o ∧ o < 0) ∧
      (p.getD 4 0 = 0 → o = 0) := by
  rw [PointNetSegmentation_get? P pts i p hp, Option.some_inj] at hout
  subst hout
  intro o ho
  unfold segPoint at ho
  obtain ⟨s, _, rfl⟩ := List.mem_map.mp ho
  refine ⟨s, rfl, sigmoid_pos s, sigmoid_lt_one s, ?_, ?_, ?_⟩
  · intro he
    constructor
    · exact mul_pos (sigmoid_pos s) he
    · nlinarith [sigmoid_pos s, sigmoid_lt_one s]
  · intro he
    constructor
    · nlinarith [sigmoid_pos s, sigmoid_lt_one s]
    · exact mul_neg_of_pos_of_neg (sigmoid_pos s) he
  · intro he
    rw [he, mul_zero]

/-- Counterexample to claim C5's "magnitude strictly smaller": at a point
whose energy feature is 0 (here with all-zero weights) the output value is 0,
whose magnitude equals — not strictly undercuts — the energy's magnitude. -/
theorem zero_energy_output_not_smaller :
    PointNetSegmentation zeroPN [[0, 0, 0, 0, 0, 0]] = [[(0 : ℝ)]] ∧
    ¬ |(0 : ℝ)| < |(0 : ℝ)| := by
  constructor
  · rw [zeroPN_eval]
    norm_num [List.getD]
  · norm_num

/-- Witness for segmentation_output_bounds: the all-zero weights and a point
with energy feature 1. -/
theorem segmentation_output_bounds_witness :
    0 < sigmoid 0 * (([0, 0, 0, 0, 1, -1] : List ℝ).getD 4 0) ∧
    sigmoid 0 * (([0, 0, 0, 0, 1, -1] : List ℝ).getD 4 0) <
      ([0, 0, 0, 0, 1, -1] : List ℝ).getD 4 0 := by
  obtain ⟨s, hs, _, _, hpos, _, _⟩ :=
    segmentation_output_bounds zeroPN [[0, 0, 0, 0, 1, -1]] 0
      [0, 0, 0, 0, 1, -1] [sigmoid 0 * (([0, 0, 0, 0, 1, -1] : List ℝ).getD 4 0)]
      rfl (by rw [zeroPN_eval]; rfl)
      (sigmoid 0 * (([0, 0, 0, 0, 1, -1] : List ℝ).getD 4 0))
      (List.mem_singleton.mpr rfl)
  exact hpos (by norm_num [List.getD])
